import Mathlib

/-!
Shallow embedding of `src/bron_kerbosch.cc`: a `Graph` over a fixed vertex
count with a boolean adjacency matrix, and the Bron-Kerbosch maximal-clique
search with pivoting (`find_max_cliques` / `bron_kerbosch`).

Vertex sets (`std::set<int>`) are modelled as `Finset ℕ`; a `std::set`
iterates its members in increasing order, which we realise by filtering
`List.range g.n` (every vertex set handled by the algorithm is a subset of
`[0, n)`).  The collection of cliques (`std::vector<std::set<int>>`) is a
`List (Finset ℕ)`; `push_back` during the depth-first recursion corresponds
to list concatenation in call order.  The recursion of `bron_kerbosch` is
expressed with an explicit `fuel` parameter; `find_max_cliques` invokes it
with fuel `n + 1`, which is proved sufficient (`bron_kerbosch_fuel_congr`):
every level of the recursion strictly shrinks `P`, so the recursion depth
is bounded by `n`.
-/

/-- The graph class: `num_vertices` and the `n × n` boolean adjacency
matrix, modelled as a membership function (entries outside `[0,n) × [0,n)`
are never set to `true` by the operations below). -/
structure Graph where
  n : ℕ
  adj : ℕ → ℕ → Bool

/-- The body of `Graph(int n)` for a non-negative count: `n` vertices, all
adjacency entries initialised to `false`. -/
def mkGraph (n : ℕ) : Graph := ⟨n, fun _ _ => false⟩

/-- Models the constructor `Graph(int n)` (line 19) as fallible code.  For
negative `n`, `adj_matrix(n, vector<bool>(n, false))` converts `n` to
`size_t`, producing a count far beyond `vector::max_size()`, so the vector
constructor throws `std::length_error`: construction fails and no graph
object is produced, modelled as `none`. -/
def graphCreate (n : Int) : Option Graph :=
  if n < 0 then none else some (mkGraph n.toNat)

/-- `Graph::add_edge(int u, int v)` (lines 26-31): if both endpoints are in
`[0, num_vertices)`, set `adj_matrix[u][v]` and `adj_matrix[v][u]`;
otherwise do nothing. -/
def add_edge (g : Graph) (u v : Int) : Graph :=
  if 0 ≤ u ∧ u < (g.n : Int) ∧ 0 ≤ v ∧ v < (g.n : Int) then
    { g with adj := fun a b =>
        if (a = u.toNat ∧ b = v.toNat) ∨ (a = v.toNat ∧ b = u.toNat) then true
        else g.adj a b }
  else g

/-- A sequence of `add_edge` calls, in order. -/
def applyEdges (g : Graph) : List (Int × Int) → Graph
  | [] => g
  | (u, v) :: es => applyEdges (add_edge g u v) es

/-- A graph as the program can construct it: `Graph(n)` followed by a
sequence of `add_edge` calls. -/
def buildGraph (n : ℕ) (es : List (Int × Int)) : Graph :=
  applyEdges (mkGraph n) es

/-- `Graph::is_neighbor(int u, int v)` (lines 110-112): `adj_matrix[u][v]`. -/
def is_neighbor (g : Graph) (u v : ℕ) : Bool := g.adj u v

/-- `Graph::get_neighbors(int v)` (lines 100-108): the list of `i < n` with
`adj_matrix[v][i]`, in increasing order. -/
def get_neighbors (g : Graph) (v : ℕ) : List ℕ :=
  (List.range g.n).filter (fun i => g.adj v i)

/-- `Graph::degree(int u)` (lines 114-121): the number of `i < n` with
`adj_matrix[u][i]`. -/
def degree (g : Graph) (u : ℕ) : ℕ :=
  ((List.range g.n).filter (fun i => g.adj u i)).length

/-- The members of a vertex set in increasing order: the iteration order of
a `std::set<int>` whose elements lie in `[0, n)` (as all vertex sets of the
algorithm do). -/
def sortedMem (g : Graph) (S : Finset ℕ) : List ℕ :=
  (List.range g.n).filter (fun i => i ∈ S)

/-- The pivot-selection loop (lines 69-74): starting from `u = *P.begin()`,
scan `P` in increasing order, skip vertices of `X`, and replace `u` by any
vertex of strictly larger whole-graph degree. -/
def pivotAux (g : Graph) (X : Finset ℕ) : ℕ → List ℕ → ℕ
  | u, [] => u
  | u, v :: rest =>
      pivotAux g X (if v ∈ X then u else if degree g v > degree g u then v else u) rest

/-- The chosen pivot: `u = *P.begin()` refined by the scan over `P`.  (The
`[]` case is unreachable: the code dereferences `P.begin()` only when `P`
is non-empty.) -/
def pivotOf (g : Graph) (P X : Finset ℕ) : ℕ :=
  match sortedMem g P with
  | [] => 0
  | u :: rest => pivotAux g X u (u :: rest)

/-- `P_minus_N` (lines 75-79): the vertices of `P`, in increasing order,
that are not adjacent to the pivot `u`. -/
def branchList (g : Graph) (P : Finset ℕ) (u : ℕ) : List ℕ :=
  (sortedMem g P).filter (fun v => ! is_neighbor g v u)

/-- Lines 84-92: `new_P` (resp. `new_X`) collects the members of
`get_neighbors(v)` that lie in `P` (resp. `X`); as a set this is the filter
of `S` by membership in `get_neighbors(v)`. -/
def restrictTo (g : Graph) (v : ℕ) (S : Finset ℕ) : Finset ℕ :=
  S.filter (fun w => w ∈ get_neighbors g v)

/-- The `for (int v : P_minus_N)` loop (lines 81-97): for each branch
vertex `v`, recurse on `(R ∪ {v}, P ∩ N(v), X ∩ N(v))` (computed from the
current `P`, `X`), then erase `v` from `P` and insert it into `X` before
the next iteration.  Cliques found are appended in call order. -/
def bkLoop (g : Graph) (recur : Finset ℕ → Finset ℕ → Finset ℕ → List (Finset ℕ))
    (R : Finset ℕ) : List ℕ → Finset ℕ → Finset ℕ → List (Finset ℕ)
  | [], _, _ => []
  | v :: rest, P, X =>
      recur (insert v R) (restrictTo g v P) (restrictTo g v X)
        ++ bkLoop g recur R rest (P.erase v) (insert v X)

/-- `Graph::bron_kerbosch` (lines 61-98), with explicit recursion fuel: if
`P` and `X` are both empty, record `R`; if only `P` is empty, record
nothing; otherwise pick the pivot, form `P_minus_N`, and run the branch
loop.  Fuel `card P + 1` is sufficient (`bron_kerbosch_fuel_congr`). -/
def bron_kerbosch (g : Graph) : ℕ → Finset ℕ → Finset ℕ → Finset ℕ → List (Finset ℕ)
  | 0, _, _, _ => []
  | fuel + 1, R, P, X =>
      if P = ∅ then (if X = ∅ then [R] else [])
      else
        bkLoop g (fun R' P' X' => bron_kerbosch g fuel R' P' X') R
          (branchList g P (pivotOf g P X)) P X

/-- `Graph::find_max_cliques` (lines 44-58): start from `R = ∅`,
`P = {0, …, n-1}`, `X = ∅` and run the search, but only when
`num_vertices > 0`; for `n = 0` the collection stays empty. -/
def find_max_cliques (g : Graph) : List (Finset ℕ) :=
  if 0 < g.n then bron_kerbosch g (g.n + 1) ∅ (Finset.range g.n) ∅ else []

/-! ### Graph-level predicates -/

/-- The adjacency matrix is symmetric (maintained by `add_edge`). -/
def adjSymm (g : Graph) : Prop := ∀ a b, g.adj a b = g.adj b a

/-- Adjacency only holds between in-range vertices. -/
def adjBounded (g : Graph) : Prop := ∀ a b, g.adj a b = true → a < g.n ∧ b < g.n

/-- No self-loops. -/
def adjIrrefl (g : Graph) : Prop := ∀ a, g.adj a a = false

/-- A clique: all distinct member vertices are pairwise adjacent. -/
def isClique (g : Graph) (S : Finset ℕ) : Prop :=
  ∀ u ∈ S, ∀ v ∈ S, u ≠ v → g.adj u v = true

/-- `S` cannot be extended: it is not a proper subset of any vertex set
that is itself pairwise adjacent in the graph. -/
def unextendable (g : Graph) (S : Finset ℕ) : Prop :=
  ∀ T, isClique g T → S ⊆ T → S = T

/-- A maximal clique of the graph: a non-empty set of in-range vertices,
pairwise adjacent, contained in no larger pairwise-adjacent set.  (The
empty set is excluded: the contract returns no clique for `n = 0`.) -/
def isMaxClique (g : Graph) (S : Finset ℕ) : Prop :=
  S.Nonempty ∧ S ⊆ Finset.range g.n ∧ isClique g S ∧ unextendable g S

/-- The search-state invariant of the recursion (spec section 3 plus the
completeness condition implicit in the algorithm): `R` is a clique, every
vertex of `P ∪ X` is adjacent to every vertex of `R`, `P` and `X` are
disjoint, every in-range vertex outside `R` adjacent to all of `R` lies in
`P ∪ X`, and all three sets are in range. -/
structure BKInv (g : Graph) (R P X : Finset ℕ) : Prop where
  clique : isClique g R
  adjR : ∀ w ∈ P ∪ X, ∀ r ∈ R, g.adj w r = true
  disj : P ∩ X = ∅
  complete : ∀ w, w < g.n → w ∉ R → (∀ r ∈ R, g.adj w r = true) → w ∈ P ∪ X
  PXrange : P ∪ X ⊆ Finset.range g.n
  Rrange : R ⊆ Finset.range g.n

/-- The cliques a call `bron_kerbosch(R, P, X)` is responsible for: the
maximal cliques `Q` with `R ⊆ Q ⊆ R ∪ P`. -/
def BKTarget (g : Graph) (R P Q : Finset ℕ) : Prop :=
  isMaxClique g Q ∧ R ⊆ Q ∧ Q ⊆ R ∪ P

/-! ### Basic facts about graph construction -/

theorem add_edge_n (g : Graph) (u v : Int) : (add_edge g u v).n = g.n := by
  unfold add_edge; split <;> rfl

theorem applyEdges_n (es : List (Int × Int)) : ∀ g : Graph, (applyEdges g es).n = g.n := by
  induction es with
  | nil => intro g; rfl
  | cons e es ih => intro g; cases e; rw [applyEdges, ih, add_edge_n]

theorem buildGraph_n (n : ℕ) (es : List (Int × Int)) : (buildGraph n es).n = n := by
  rw [buildGraph, applyEdges_n]; rfl

theorem add_edge_symm {g : Graph} (h : adjSymm g) (u v : Int) : adjSymm (add_edge g u v) := by
  intro a b
  unfold add_edge
  split
  · simp only
    by_cases h1 : (a = u.toNat ∧ b = v.toNat) ∨ (a = v.toNat ∧ b = u.toNat)
    · have h2 : (b = u.toNat ∧ a = v.toNat) ∨ (b = v.toNat ∧ a = u.toNat) := by tauto
      rw [if_pos h1, if_pos h2]
    · have h2 : ¬ ((b = u.toNat ∧ a = v.toNat) ∨ (b = v.toNat ∧ a = u.toNat)) := by tauto
      rw [if_neg h1, if_neg h2, h a b]
  · exact h a b

theorem add_edge_bounded {g : Graph} (h : adjBounded g) (u v : Int) :
    adjBounded (add_edge g u v) := by
  intro a b
  unfold add_edge
  split
  · next hin =>
    simp only
    split
    · next heq =>
      intro _
      obtain ⟨hu0, hun, hv0, hvn⟩ := hin
      have hu : u.toNat < g.n := by omega
      have hv : v.toNat < g.n := by omega
      rcases heq with ⟨ha, hb⟩ | ⟨ha, hb⟩ <;> subst ha <;> subst hb <;> exact ⟨by omega, by omega⟩
    · exact h a b
  · exact h a b

theorem add_edge_irrefl {g : Graph} (h : adjIrrefl g) {u v : Int} (huv : u ≠ v) :
    adjIrrefl (add_edge g u v) := by
  intro a
  unfold add_edge
  split
  · next hin =>
    simp only
    split
    · next heq =>
      obtain ⟨hu0, _, hv0, _⟩ := hin
      exfalso
      have : u.toNat = v.toNat := by rcases heq with ⟨h1, h2⟩ | ⟨h1, h2⟩ <;> omega
      omega
    · exact h a
  · exact h a

theorem mkGraph_symm (n : ℕ) : adjSymm (mkGraph n) := fun _ _ => rfl

theorem mkGraph_bounded (n : ℕ) : adjBounded (mkGraph n) := by
  intro a b h; exact absurd h (by simp [mkGraph])

theorem mkGraph_irrefl (n : ℕ) : adjIrrefl (mkGraph n) := fun _ => rfl

theorem applyEdges_symm (es : List (Int × Int)) :
    ∀ g : Graph, adjSymm g → adjSymm (applyEdges g es) := by
  induction es with
  | nil => intro g h; exact h
  | cons e es ih => intro g h; cases e; exact ih _ (add_edge_symm h _ _)

theorem applyEdges_bounded (es : List (Int × Int)) :
    ∀ g : Graph, adjBounded g → adjBounded (applyEdges g es) := by
  induction es with
  | nil => intro g h; exact h
  | cons e es ih => intro g h; cases e; exact ih _ (add_edge_bounded h _ _)

theorem applyEdges_irrefl (es : List (Int × Int)) (hne : ∀ p ∈ es, p.1 ≠ p.2) :
    ∀ g : Graph, adjIrrefl g → adjIrrefl (applyEdges g es) := by
  induction es with
  | nil => intro g h; exact h
  | cons e es ih =>
    intro g h
    cases e with
    | mk u v =>
      exact ih (fun p hp => hne p (List.mem_cons_of_mem _ hp)) _
        (add_edge_irrefl h (hne (u, v) (List.mem_cons_self _ _)))

theorem buildGraph_symm (n : ℕ) (es : List (Int × Int)) : adjSymm (buildGraph n es) :=
  applyEdges_symm es _ (mkGraph_symm n)

theorem buildGraph_bounded (n : ℕ) (es : List (Int × Int)) : adjBounded (buildGraph n es) :=
  applyEdges_bounded es _ (mkGraph_bounded n)

theorem buildGraph_irrefl (n : ℕ) (es : List (Int × Int)) (hne : ∀ p ∈ es, p.1 ≠ p.2) :
    adjIrrefl (buildGraph n es) :=
  applyEdges_irrefl es hne _ (mkGraph_irrefl n)

/-! ### Membership lemmas for the query functions -/

theorem mem_get_neighbors {g : Graph} {v w : ℕ} :
    w ∈ get_neighbors g v ↔ w < g.n ∧ g.adj v w = true := by
  simp [get_neighbors, List.mem_filter, List.mem_range]

theorem mem_sortedMem {g : Graph} {S : Finset ℕ} {v : ℕ} :
    v ∈ sortedMem g S ↔ v < g.n ∧ v ∈ S := by
  simp [sortedMem, List.mem_filter, List.mem_range]

theorem sortedMem_nodup (g : Graph) (S : Finset ℕ) : (sortedMem g S).Nodup :=
  (List.nodup_range _).filter _

theorem mem_restrictTo {g : Graph} {v w : ℕ} {S : Finset ℕ} :
    w ∈ restrictTo g v S ↔ w ∈ S ∧ w < g.n ∧ g.adj v w = true := by
  simp [restrictTo, Finset.mem_filter, mem_get_neighbors]

theorem restrictTo_subset (g : Graph) (v : ℕ) (S : Finset ℕ) : restrictTo g v S ⊆ S :=
  Finset.filter_subset _ _

theorem mem_branchList {g : Graph} {P : Finset ℕ} {u v : ℕ} :
    v ∈ branchList g P u ↔ v < g.n ∧ v ∈ P ∧ g.adj v u = false := by
  simp only [branchList, List.mem_filter, mem_sortedMem, is_neighbor,
    Bool.not_eq_true', and_assoc]

theorem branchList_nodup (g : Graph) (P : Finset ℕ) (u : ℕ) : (branchList g P u).Nodup :=
  (sortedMem_nodup g P).filter _

/-! ### Pivot lemmas -/

theorem pivotAux_mem (g : Graph) (X : Finset ℕ) :
    ∀ (l : List ℕ) (u : ℕ), pivotAux g X u l = u ∨ pivotAux g X u l ∈ l := by
  intro l
  induction l with
  | nil => intro u; left; rfl
  | cons v rest ih =>
    intro u
    rw [pivotAux]
    rcases ih (if v ∈ X then u else if degree g v > degree g u then v else u) with h | h
    · rw [h]
      split
      · left; rfl
      · split
        · right; exact List.mem_cons_self _ _
        · left; rfl
    · right; exact List.mem_cons_of_mem _ h

theorem pivotAux_notMem (g : Graph) (X : Finset ℕ) :
    ∀ (l : List ℕ) (u : ℕ), u ∉ X → pivotAux g X u l ∉ X := by
  intro l
  induction l with
  | nil => intro u h; exact h
  | cons v rest ih =>
    intro u h
    rw [pivotAux]
    apply ih
    split
    · exact h
    · next hvX => split <;> assumption

theorem pivotAux_degree_le (g : Graph) (X : Finset ℕ) :
    ∀ (l : List ℕ) (u : ℕ), degree g u ≤ degree g (pivotAux g X u l) := by
  intro l
  induction l with
  | nil => intro u; exact le_refl _
  | cons v rest ih =>
    intro u
    rw [pivotAux]
    refine le_trans ?_ (ih _)
    split
    · exact le_refl _
    · split
      · next h => exact le_of_lt h
      · exact le_refl _

theorem pivotAux_max (g : Graph) (X : Finset ℕ) :
    ∀ (l : List ℕ) (u : ℕ), ∀ v ∈ l, v ∉ X → degree g v ≤ degree g (pivotAux g X u l) := by
  intro l
  induction l with
  | nil => intro u v hv; exact absurd hv (List.not_mem_nil v)
  | cons w rest ih =>
    intro u v hv hvX
    rw [pivotAux]
    rcases List.mem_cons.mp hv with h | h
    · subst h
      refine le_trans ?_ (pivotAux_degree_le g X rest _)
      rw [if_neg hvX]
      split
      · exact le_refl _
      · next h => exact le_of_not_lt h
    · exact ih _ v h hvX

theorem pivotOf_eq_cons {g : Graph} {P X : Finset ℕ} {u : ℕ} {rest : List ℕ}
    (h : sortedMem g P = u :: rest) : pivotOf g P X = pivotAux g X u (u :: rest) := by
  unfold pivotOf; rw [h]

theorem sortedMem_ne_nil {g : Graph} {P : Finset ℕ} (hP : P.Nonempty)
    (hPr : P ⊆ Finset.range g.n) : sortedMem g P ≠ [] := by
  obtain ⟨v, hv⟩ := hP
  have hvmem : v ∈ sortedMem g P :=
    mem_sortedMem.mpr ⟨Finset.mem_range.mp (hPr hv), hv⟩
  intro h
  rw [h] at hvmem
  exact absurd hvmem (List.not_mem_nil v)

theorem pivotOf_mem {g : Graph} {P X : Finset ℕ} (hP : P.Nonempty)
    (hPr : P ⊆ Finset.range g.n) : pivotOf g P X ∈ P := by
  rcases h : sortedMem g P with _ | ⟨u, rest⟩
  · exact absurd h (sortedMem_ne_nil hP hPr)
  · rw [pivotOf_eq_cons h]
    rcases pivotAux_mem g X (u :: rest) u with h2 | h2
    · rw [h2]
      have : u ∈ sortedMem g P := by rw [h]; exact List.mem_cons_self _ _
      exact (mem_sortedMem.mp this).2
    · have : pivotAux g X u (u :: rest) ∈ sortedMem g P := by rw [h]; exact h2
      exact (mem_sortedMem.mp this).2

theorem pivotOf_notMem {g : Graph} {P X : Finset ℕ} (hd : P ∩ X = ∅)
    (hP : P.Nonempty) (hPr : P ⊆ Finset.range g.n) : pivotOf g P X ∉ X := by
  have hdisj : ∀ a ∈ P, a ∉ X := by
    intro a ha haX
    have : a ∈ P ∩ X := Finset.mem_inter.mpr ⟨ha, haX⟩
    rw [hd] at this
    exact absurd this (Finset.not_mem_empty a)
  rcases h : sortedMem g P with _ | ⟨u, rest⟩
  · exact absurd h (sortedMem_ne_nil hP hPr)
  · rw [pivotOf_eq_cons h]
    apply pivotAux_notMem
    apply hdisj
    have : u ∈ sortedMem g P := by rw [h]; exact List.mem_cons_self _ _
    exact (mem_sortedMem.mp this).2

theorem pivotOf_max {g : Graph} {P X : Finset ℕ} (hP : P.Nonempty)
    (hPr : P ⊆ Finset.range g.n) :
    ∀ v ∈ P, v ∉ X → degree g v ≤ degree g (pivotOf g P X) := by
  intro v hv hvX
  have hvmem : v ∈ sortedMem g P :=
    mem_sortedMem.mpr ⟨Finset.mem_range.mp (hPr hv), hv⟩
  rcases h : sortedMem g P with _ | ⟨u, rest⟩
  · exact absurd h (sortedMem_ne_nil hP hPr)
  · rw [pivotOf_eq_cons h]
    rw [h] at hvmem
    exact pivotAux_max g X (u :: rest) u v hvmem hvX

/-! ### Invariant preservation -/

theorem notMem_of_inter_empty {P X : Finset ℕ} (hd : P ∩ X = ∅) {a : ℕ} (ha : a ∈ P) :
    a ∉ X := by
  intro haX
  have : a ∈ P ∩ X := Finset.mem_inter.mpr ⟨ha, haX⟩
  rw [hd] at this
  exact absurd this (Finset.not_mem_empty a)

theorem BKInv_child {g : Graph} {R P X : Finset ℕ} {v : ℕ} (hs : adjSymm g)
    (hinv : BKInv g R P X) (hvP : v ∈ P) :
    BKInv g (insert v R) (restrictTo g v P) (restrictTo g v X) := by
  constructor
  · intro a ha b hb hab
    rcases Finset.mem_insert.mp ha with rfl | haR
    · rcases Finset.mem_insert.mp hb with rfl | hbR
      · exact absurd rfl hab
      · exact hinv.adjR a (Finset.mem_union_left _ hvP) b hbR
    · rcases Finset.mem_insert.mp hb with rfl | hbR
      · rw [hs a b]
        exact hinv.adjR b (Finset.mem_union_left _ hvP) a haR
      · exact hinv.clique a haR b hbR hab
  · intro w hw r hr
    have hw' : (w ∈ P ∪ X) ∧ w < g.n ∧ g.adj v w = true := by
      rcases Finset.mem_union.mp hw with h | h
      · rcases mem_restrictTo.mp h with ⟨h1, h2, h3⟩
        exact ⟨Finset.mem_union_left _ h1, h2, h3⟩
      · rcases mem_restrictTo.mp h with ⟨h1, h2, h3⟩
        exact ⟨Finset.mem_union_right _ h1, h2, h3⟩
    rcases Finset.mem_insert.mp hr with rfl | hrR
    · rw [hs w r]; exact hw'.2.2
    · exact hinv.adjR w hw'.1 r hrR
  · apply Finset.eq_empty_iff_forall_not_mem.mpr
    intro a ha
    rcases Finset.mem_inter.mp ha with ⟨haP, haX⟩
    exact notMem_of_inter_empty hinv.disj (mem_restrictTo.mp haP).1
      (mem_restrictTo.mp haX).1
  · intro w hwn hwR hadj
    have hwR' : w ∉ R := fun h => hwR (Finset.mem_insert_of_mem h)
    have hadjR : ∀ r ∈ R, g.adj w r = true := fun r hr =>
      hadj r (Finset.mem_insert_of_mem hr)
    have hwv : g.adj w v = true := hadj v (Finset.mem_insert_self v R)
    have hvw : g.adj v w = true := by rw [hs v w]; exact hwv
    rcases Finset.mem_union.mp (hinv.complete w hwn hwR' hadjR) with h | h
    · exact Finset.mem_union_left _ (mem_restrictTo.mpr ⟨h, hwn, hvw⟩)
    · exact Finset.mem_union_right _ (mem_restrictTo.mpr ⟨h, hwn, hvw⟩)
  · intro a ha
    apply hinv.PXrange
    rcases Finset.mem_union.mp ha with h | h
    · exact Finset.mem_union_left _ (restrictTo_subset g v P h)
    · exact Finset.mem_union_right _ (restrictTo_subset g v X h)
  · apply Finset.insert_subset_iff.mpr
    exact ⟨hinv.PXrange (Finset.mem_union_left _ hvP), hinv.Rrange⟩

theorem BKInv_sibling {g : Graph} {R P X : Finset ℕ} {v : ℕ}
    (hinv : BKInv g R P X) (hvP : v ∈ P) :
    BKInv g R (P.erase v) (insert v X) := by
  constructor
  · exact hinv.clique
  · intro w hw r hr
    apply hinv.adjR w ?_ r hr
    rcases Finset.mem_union.mp hw with h | h
    · exact Finset.mem_union_left _ (Finset.mem_of_mem_erase h)
    · rcases Finset.mem_insert.mp h with rfl | hX
      · exact Finset.mem_union_left _ hvP
      · exact Finset.mem_union_right _ hX
  · apply Finset.eq_empty_iff_forall_not_mem.mpr
    intro a ha
    rcases Finset.mem_inter.mp ha with ⟨haP, haX⟩
    rcases Finset.mem_erase.mp haP with ⟨hav, haP'⟩
    rcases Finset.mem_insert.mp haX with rfl | haX'
    · exact hav rfl
    · exact notMem_of_inter_empty hinv.disj haP' haX'
  · intro w hwn hwR hadj
    rcases Finset.mem_union.mp (hinv.complete w hwn hwR hadj) with h | h
    · by_cases hwv : w = v
      · exact Finset.mem_union_right _ (Finset.mem_insert.mpr (Or.inl hwv))
      · exact Finset.mem_union_left _ (Finset.mem_erase.mpr ⟨hwv, h⟩)
    · exact Finset.mem_union_right _ (Finset.mem_insert_of_mem h)
  · intro a ha
    apply hinv.PXrange
    rcases Finset.mem_union.mp ha with h | h
    · exact Finset.mem_union_left _ (Finset.mem_of_mem_erase h)
    · rcases Finset.mem_insert.mp h with rfl | hX
      · exact Finset.mem_union_left _ hvP
      · exact Finset.mem_union_right _ hX
  · exact hinv.Rrange

theorem restrictTo_card_lt {g : Graph} {P P₀ : Finset ℕ} {u v : ℕ}
    (hu : u ∈ P₀) (hsub : P ⊆ P₀) (hadj : g.adj v u = false) :
    (restrictTo g v P).card < P₀.card := by
  have h1 : restrictTo g v P ⊆ P₀.erase u := by
    intro w hw
    rcases mem_restrictTo.mp hw with ⟨hwP, hwn, hadj'⟩
    refine Finset.mem_erase.mpr ⟨?_, hsub hwP⟩
    intro heq
    rw [heq] at hadj'
    rw [hadj'] at hadj
    exact Bool.noConfusion hadj
  calc (restrictTo g v P).card ≤ (P₀.erase u).card := Finset.card_le_card h1
    _ < P₀.card := Finset.card_erase_lt_of_mem hu

theorem branch_not_in_R {g : Graph} {R : Finset ℕ} {u v : ℕ} (hs : adjSymm g)
    (hur : ∀ r ∈ R, g.adj u r = true) (hvu : g.adj v u = false) : v ∉ R := by
  intro hvR
  have h1 : g.adj u v = true := hur v hvR
  rw [hs u v] at h1
  rw [hvu] at h1
  exact Bool.noConfusion h1

theorem emitted_isMaxClique {g : Graph} {R : Finset ℕ} (hb : adjBounded g)
    (hinv : BKInv g R ∅ ∅) (hR : R.Nonempty) : isMaxClique g R := by
  refine ⟨hR, hinv.Rrange, hinv.clique, ?_⟩
  intro T hT hRT
  by_contra hne
  have hnsub : ¬ T ⊆ R := fun h => hne (Finset.Subset.antisymm hRT h)
  obtain ⟨t, htT, htR⟩ := Finset.not_subset.mp hnsub
  obtain ⟨r0, hr0⟩ := hR
  have hadj : ∀ r ∈ R, g.adj t r = true := fun r hr =>
    hT t htT r (hRT hr) (fun heq => htR (heq ▸ hr))
  have htn : t < g.n := (hb t r0 (hadj r0 hr0)).1
  have h2 := hinv.complete t htn htR hadj
  rw [Finset.union_empty] at h2
  exact absurd h2 (Finset.not_mem_empty t)

theorem no_target_of_X_nonempty {g : Graph} {R X : Finset ℕ} (hs : adjSymm g)
    (hi : adjIrrefl g) (hinv : BKInv g R ∅ X) (hX : X ≠ ∅) :
    ∀ Q, ¬ BKTarget g R ∅ Q := by
  rintro Q ⟨hQmax, hRQ, hQR⟩
  rw [Finset.union_empty] at hQR
  have hQeq : Q = R := Finset.Subset.antisymm hQR hRQ
  subst hQeq
  obtain ⟨x, hx⟩ := Finset.nonempty_iff_ne_empty.mpr hX
  have hxQ : x ∉ Q := by
    intro hxQ
    have h1 : g.adj x x = true := hinv.adjR x (Finset.mem_union_right _ hx) x hxQ
    rw [hi x] at h1
    exact Bool.noConfusion h1
  have hclique : isClique g (insert x Q) := by
    intro a ha b hb hab
    rcases Finset.mem_insert.mp ha with rfl | haQ
    · rcases Finset.mem_insert.mp hb with rfl | hbQ
      · exact absurd rfl hab
      · exact hinv.adjR a (Finset.mem_union_right _ hx) b hbQ
    · rcases Finset.mem_insert.mp hb with rfl | hbQ
      · rw [hs a b]
        exact hinv.adjR b (Finset.mem_union_right _ hx) a haQ
      · exact hQmax.2.2.1 a haQ b hbQ hab
  have h2 := hQmax.2.2.2 (insert x Q) hclique (Finset.subset_insert x Q)
  exact hxQ (by rw [h2]; exact Finset.mem_insert_self x Q)

theorem target_hits_branch {g : Graph} {R P X Q : Finset ℕ} (hs : adjSymm g)
    (hi : adjIrrefl g) (hinv : BKInv g R P X) (hP : P.Nonempty)
    (hQ : isMaxClique g Q) (_hRQ : R ⊆ Q) (hQRP : Q ⊆ R ∪ P) :
    ∃ v ∈ branchList g P (pivotOf g P X), v ∈ Q := by
  have hPr : P ⊆ Finset.range g.n := fun a ha =>
    hinv.PXrange (Finset.mem_union_left _ ha)
  have huP : pivotOf g P X ∈ P := pivotOf_mem hP hPr
  have hun : pivotOf g P X < g.n := Finset.mem_range.mp (hPr huP)
  by_cases huQ : pivotOf g P X ∈ Q
  · exact ⟨pivotOf g P X, mem_branchList.mpr ⟨hun, huP, hi _⟩, huQ⟩
  · by_contra hnone
    push_neg at hnone
    have hQP_adj : ∀ q ∈ Q, q ∉ R → g.adj q (pivotOf g P X) = true := by
      intro q hqQ hqR
      have hqP : q ∈ P := (Finset.mem_union.mp (hQRP hqQ)).resolve_left hqR
      have hqn : q < g.n := Finset.mem_range.mp (hPr hqP)
      by_contra hadj
      exact hnone q (mem_branchList.mpr ⟨hqn, hqP, Bool.eq_false_iff.mpr hadj⟩) hqQ
    have hadjuQ : ∀ q ∈ Q, q ≠ pivotOf g P X → g.adj (pivotOf g P X) q = true := by
      intro q hqQ hqu
      by_cases hqR : q ∈ R
      · exact hinv.adjR _ (Finset.mem_union_left _ huP) q hqR
      · rw [hs _ q]; exact hQP_adj q hqQ hqR
    have hclique : isClique g (insert (pivotOf g P X) Q) := by
      intro a ha b hb hab
      rcases Finset.mem_insert.mp ha with rfl | haQ
      · rcases Finset.mem_insert.mp hb with rfl | hbQ
        · exact absurd rfl hab
        · exact hadjuQ b hbQ (Ne.symm hab)
      · rcases Finset.mem_insert.mp hb with rfl | hbQ
        · rw [hs a (pivotOf g P X)]; exact hadjuQ a haQ hab
        · exact hQ.2.2.1 a haQ b hbQ hab
    have h2 := hQ.2.2.2 _ hclique (Finset.subset_insert _ Q)
    exact huQ (by rw [h2]; exact Finset.mem_insert_self _ Q)

/-! ### Exact characterisation of the search output -/

theorem bkLoop_exact (g : Graph) (hs : adjSymm g)
    (R P₀ : Finset ℕ) (u : ℕ) (hu₀ : u ∈ P₀) (f : ℕ) (hf : P₀.card ≤ f)
    (hrec : ∀ R' P' X', R'.Nonempty → P'.card < f → BKInv g R' P' X' →
      (∀ Q, Q ∈ bron_kerbosch g f R' P' X' ↔ BKTarget g R' P' Q) ∧
        (bron_kerbosch g f R' P' X').Nodup) :
    ∀ (vs : List ℕ) (P X : Finset ℕ), vs.Nodup → (∀ v ∈ vs, v ∈ P) →
      (∀ v ∈ vs, g.adj v u = false) → P ⊆ P₀ → u ∈ P ∪ X → BKInv g R P X →
      (∀ Q, Q ∈ bkLoop g (fun R' P' X' => bron_kerbosch g f R' P' X') R vs P X ↔
        (isMaxClique g Q ∧ R ⊆ Q ∧ Q ⊆ R ∪ P ∧ ∃ v ∈ vs, v ∈ Q)) ∧
      (bkLoop g (fun R' P' X' => bron_kerbosch g f R' P' X') R vs P X).Nodup := by
  intro vs
  induction vs with
  | nil =>
    intro P X _ _ _ _ _ _
    constructor
    · intro Q
      simp [bkLoop]
    · simp only [bkLoop]
      exact List.nodup_nil
  | cons v rest ih =>
    intro P X hnd hvsP hvsAdj hPP₀ huPX hinv
    have hvP : v ∈ P := hvsP v (List.mem_cons_self _ _)
    have hvu : g.adj v u = false := hvsAdj v (List.mem_cons_self _ _)
    have huadjR : ∀ r ∈ R, g.adj u r = true := fun r hr => hinv.adjR u huPX r hr
    have hvR : v ∉ R := branch_not_in_R hs huadjR hvu
    have hvn : v < g.n :=
      Finset.mem_range.mp (hinv.PXrange (Finset.mem_union_left _ hvP))
    -- the recursive call on (R ∪ {v}, P ∩ N(v), X ∩ N(v))
    have hchildInv := BKInv_child hs hinv hvP
    have hcard : (restrictTo g v P).card < f :=
      lt_of_lt_of_le (restrictTo_card_lt hu₀ hPP₀ hvu) hf
    have hchild := hrec (insert v R) (restrictTo g v P) (restrictTo g v X)
      ⟨v, Finset.mem_insert_self v R⟩ hcard hchildInv
    -- the rest of the loop, after moving v from P to X
    have hvrest : v ∉ rest := (List.nodup_cons.mp hnd).1
    have hrest := ih (P.erase v) (insert v X) (List.nodup_cons.mp hnd).2
      (fun w hw => Finset.mem_erase.mpr
        ⟨fun heq => hvrest (heq ▸ hw), hvsP w (List.mem_cons_of_mem _ hw)⟩)
      (fun w hw => hvsAdj w (List.mem_cons_of_mem _ hw))
      ((Finset.erase_subset v P).trans hPP₀)
      (by
        rcases Finset.mem_union.mp huPX with h | h
        · by_cases huv : u = v
          · exact Finset.mem_union_right _ (Finset.mem_insert.mpr (Or.inl huv))
          · exact Finset.mem_union_left _ (Finset.mem_erase.mpr ⟨huv, h⟩)
        · exact Finset.mem_union_right _ (Finset.mem_insert_of_mem h))
      (BKInv_sibling hinv hvP)
    constructor
    · intro Q
      simp only [bkLoop, List.mem_append]
      rw [hchild.1 Q, hrest.1 Q]
      constructor
      · rintro (⟨hmax, hRQ, hQsub⟩ | ⟨hmax, hRQ, hQsub, w, hwrest, hwQ⟩)
        · refine ⟨hmax, (Finset.subset_insert v R).trans hRQ, ?_, v,
            List.mem_cons_self _ _, hRQ (Finset.mem_insert_self v R)⟩
          intro q hq
          rcases Finset.mem_union.mp (hQsub hq) with h | h
          · rcases Finset.mem_insert.mp h with rfl | h'
            · exact Finset.mem_union_right _ hvP
            · exact Finset.mem_union_left _ h'
          · exact Finset.mem_union_right _ (restrictTo_subset g v P h)
        · exact ⟨hmax, hRQ,
            hQsub.trans (Finset.union_subset_union_right (Finset.erase_subset v P)),
            w, List.mem_cons_of_mem _ hwrest, hwQ⟩
      · rintro ⟨hmax, hRQ, hQsub, w, hwvs, hwQ⟩
        by_cases hvQ : v ∈ Q
        · left
          refine ⟨hmax, Finset.insert_subset_iff.mpr ⟨hvQ, hRQ⟩, ?_⟩
          intro q hq
          by_cases hqR : q ∈ insert v R
          · exact Finset.mem_union_left _ hqR
          · have hqv : q ≠ v := fun heq => hqR (heq ▸ Finset.mem_insert_self v R)
            have hqR' : q ∉ R := fun h => hqR (Finset.mem_insert_of_mem h)
            have hqP : q ∈ P := (Finset.mem_union.mp (hQsub hq)).resolve_left hqR'
            have hqn : q < g.n :=
              Finset.mem_range.mp (hinv.PXrange (Finset.mem_union_left _ hqP))
            exact Finset.mem_union_right _ (mem_restrictTo.mpr
              ⟨hqP, hqn, hmax.2.2.1 v hvQ q hq (Ne.symm hqv)⟩)
        · right
          have hwv : w ≠ v := fun heq => hvQ (heq ▸ hwQ)
          refine ⟨hmax, hRQ, ?_, w, (List.mem_cons.mp hwvs).resolve_left hwv, hwQ⟩
          intro q hq
          rcases Finset.mem_union.mp (hQsub hq) with h | h
          · exact Finset.mem_union_left _ h
          · exact Finset.mem_union_right _ (Finset.mem_erase.mpr
              ⟨fun heq => hvQ (heq ▸ hq), h⟩)
    · simp only [bkLoop]
      rw [List.nodup_append]
      refine ⟨hchild.2, hrest.2, ?_⟩
      intro Q hQc hQr
      have h1 := (hchild.1 Q).mp hQc
      have h2 := (hrest.1 Q).mp hQr
      have hvQ : v ∈ Q := h1.2.1 (Finset.mem_insert_self v R)
      rcases Finset.mem_union.mp (h2.2.2.1 hvQ) with h | h
      · exact hvR h
      · exact absurd (Finset.mem_erase.mp h).1 (by simp)

theorem bron_kerbosch_exact (g : Graph) (hs : adjSymm g) (hb : adjBounded g)
    (hi : adjIrrefl g) :
    ∀ (fuel : ℕ) (R P X : Finset ℕ), R.Nonempty ∨ P.Nonempty → P.card < fuel →
      BKInv g R P X →
      (∀ Q, Q ∈ bron_kerbosch g fuel R P X ↔ BKTarget g R P Q) ∧
        (bron_kerbosch g fuel R P X).Nodup := by
  intro fuel
  induction fuel with
  | zero =>
    intro R P X _ hcard
    exact absurd hcard (Nat.not_lt_zero _)
  | succ f ih =>
    intro R P X hne hcard hinv
    by_cases hP : P = ∅
    · subst hP
      by_cases hX : X = ∅
      · subst hX
        have hR : R.Nonempty := hne.resolve_right (by simp)
        have hmax := emitted_isMaxClique hb hinv hR
        simp only [bron_kerbosch, if_pos rfl, if_true]
        constructor
        · intro Q
          simp only [List.mem_singleton]
          constructor
          · rintro rfl
            exact ⟨hmax, Finset.Subset.refl _, by rw [Finset.union_empty]⟩
          · rintro ⟨_, hRQ, hQR⟩
            rw [Finset.union_empty] at hQR
            exact Finset.Subset.antisymm hQR hRQ
        · exact List.nodup_singleton _
      · simp only [bron_kerbosch, if_pos rfl, if_neg hX, if_true]
        constructor
        · intro Q
          simp only [List.not_mem_nil, false_iff]
          exact no_target_of_X_nonempty hs hi hinv hX Q
        · exact List.nodup_nil
    · have hPne : P.Nonempty := Finset.nonempty_iff_ne_empty.mpr hP
      have hPr : P ⊆ Finset.range g.n := fun a ha =>
        hinv.PXrange (Finset.mem_union_left _ ha)
      have huP : pivotOf g P X ∈ P := pivotOf_mem hPne hPr
      have hloop := bkLoop_exact g hs R P (pivotOf g P X) huP f
        (Nat.lt_succ_iff.mp hcard)
        (fun R' P' X' hne' hcard' hinv' => ih R' P' X' (Or.inl hne') hcard' hinv')
        (branchList g P (pivotOf g P X)) P X (branchList_nodup g P _)
        (fun v hv => (mem_branchList.mp hv).2.1)
        (fun v hv => (mem_branchList.mp hv).2.2)
        (Finset.Subset.refl P)
        (Finset.mem_union_left _ huP)
        hinv
      simp only [bron_kerbosch, if_neg hP]
      constructor
      · intro Q
        rw [hloop.1 Q]
        constructor
        · rintro ⟨hmax, hRQ, hQsub, _⟩
          exact ⟨hmax, hRQ, hQsub⟩
        · rintro ⟨hmax, hRQ, hQsub⟩
          exact ⟨hmax, hRQ, hQsub,
            target_hits_branch hs hi hinv hPne hmax hRQ hQsub⟩
      · exact hloop.2

theorem find_max_cliques_exact (g : Graph) (hs : adjSymm g) (hb : adjBounded g)
    (hi : adjIrrefl g) :
    (∀ Q, Q ∈ find_max_cliques g ↔ isMaxClique g Q) ∧ (find_max_cliques g).Nodup := by
  by_cases hn : 0 < g.n
  · have hinv : BKInv g ∅ (Finset.range g.n) ∅ := by
      constructor
      · intro a ha
        exact absurd ha (Finset.not_mem_empty a)
      · intro w hw r hr
        exact absurd hr (Finset.not_mem_empty r)
      · simp
      · intro w hwn _ _
        exact Finset.mem_union_left _ (Finset.mem_range.mpr hwn)
      · rw [Finset.union_empty]
      · intro a ha
        exact absurd ha (Finset.not_mem_empty a)
    have hmain := bron_kerbosch_exact g hs hb hi (g.n + 1) ∅ (Finset.range g.n) ∅
      (Or.inr (by rwa [Finset.nonempty_range_iff, ← Nat.pos_iff_ne_zero]))
      (by rw [Finset.card_range]; exact Nat.lt_succ_self _)
      hinv
    rw [find_max_cliques, if_pos hn]
    refine ⟨fun Q => (hmain.1 Q).trans ?_, hmain.2⟩
    unfold BKTarget
    constructor
    · rintro ⟨hmax, _, _⟩
      exact hmax
    · intro hmax
      exact ⟨hmax, Finset.empty_subset Q, by rw [Finset.empty_union]; exact hmax.2.1⟩
  · rw [find_max_cliques, if_neg hn]
    constructor
    · intro Q
      simp only [List.not_mem_nil, false_iff]
      rintro ⟨⟨q, hq⟩, hQr, _, _⟩
      have := Finset.mem_range.mp (hQr hq)
      omega
    · exact List.nodup_nil

/-! ### Soundness without irreflexivity (self-loops allowed) -/

theorem pivotOf_mem_of_ne {g : Graph} {P X : Finset ℕ} (h : sortedMem g P ≠ []) :
    pivotOf g P X ∈ P := by
  rcases hm : sortedMem g P with _ | ⟨u, rest⟩
  · exact absurd hm h
  · rw [pivotOf_eq_cons hm]
    rcases pivotAux_mem g X (u :: rest) u with h2 | h2
    · rw [h2]
      have : u ∈ sortedMem g P := by rw [hm]; exact List.mem_cons_self _ _
      exact (mem_sortedMem.mp this).2
    · have : pivotAux g X u (u :: rest) ∈ sortedMem g P := by rw [hm]; exact h2
      exact (mem_sortedMem.mp this).2

theorem bkLoop_sound (g : Graph) (hs : adjSymm g) (f : ℕ) (R : Finset ℕ)
    (hrec : ∀ R' P' X', R'.Nonempty → BKInv g R' P' X' →
      ∀ S ∈ bron_kerbosch g f R' P' X', isMaxClique g S) :
    ∀ (vs : List ℕ) (P X : Finset ℕ), vs.Nodup → (∀ v ∈ vs, v ∈ P) →
      BKInv g R P X →
      ∀ S ∈ bkLoop g (fun R' P' X' => bron_kerbosch g f R' P' X') R vs P X,
        isMaxClique g S := by
  intro vs
  induction vs with
  | nil =>
    intro P X _ _ _ S hS
    simp only [bkLoop] at hS
    exact absurd hS (List.not_mem_nil S)
  | cons v rest ih =>
    intro P X hnd hvsP hinv S hS
    have hvP : v ∈ P := hvsP v (List.mem_cons_self _ _)
    have hvrest : v ∉ rest := (List.nodup_cons.mp hnd).1
    simp only [bkLoop, List.mem_append] at hS
    rcases hS with hS | hS
    · exact hrec (insert v R) (restrictTo g v P) (restrictTo g v X)
        ⟨v, Finset.mem_insert_self v R⟩ (BKInv_child hs hinv hvP) S hS
    · exact ih (P.erase v) (insert v X) (List.nodup_cons.mp hnd).2
        (fun w hw => Finset.mem_erase.mpr
          ⟨fun heq => hvrest (heq ▸ hw), hvsP w (List.mem_cons_of_mem _ hw)⟩)
        (BKInv_sibling hinv hvP) S hS

theorem bron_kerbosch_sound (g : Graph) (hs : adjSymm g) (hb : adjBounded g) :
    ∀ (fuel : ℕ) (R P X : Finset ℕ), R.Nonempty ∨ P.Nonempty → BKInv g R P X →
      ∀ S ∈ bron_kerbosch g fuel R P X, isMaxClique g S := by
  intro fuel
  induction fuel with
  | zero =>
    intro R P X _ _ S hS
    exact absurd hS (List.not_mem_nil S)
  | succ f ih =>
    intro R P X hne hinv S hS
    by_cases hP : P = ∅
    · subst hP
      by_cases hX : X = ∅
      · subst hX
        simp only [bron_kerbosch, if_pos rfl, if_true, List.mem_singleton] at hS
        subst hS
        exact emitted_isMaxClique hb hinv (hne.resolve_right (by simp))
      · simp only [bron_kerbosch, if_pos rfl, if_neg hX, if_true] at hS
        exact absurd hS (List.not_mem_nil S)
    · simp only [bron_kerbosch, if_neg hP] at hS
      exact bkLoop_sound g hs f R
        (fun R' P' X' hne' hinv' => ih R' P' X' (Or.inl hne') hinv')
        (branchList g P (pivotOf g P X)) P X (branchList_nodup g P _)
        (fun v hv => (mem_branchList.mp hv).2.1) hinv S hS

/-! ### Every emitted clique strictly extends the `R` of a branching call -/

theorem bkLoop_superset (g : Graph) (hs : adjSymm g) (f : ℕ) (R : Finset ℕ) (u : ℕ)
    (hrec : ∀ R' P' X', (∀ w ∈ P' ∪ X', ∀ r ∈ R', g.adj w r = true) →
      ∀ S ∈ bron_kerbosch g f R' P' X', R' ⊆ S) :
    ∀ (vs : List ℕ) (P X : Finset ℕ), vs.Nodup → (∀ v ∈ vs, v ∈ P) →
      (∀ v ∈ vs, g.adj v u = false) → u ∈ P ∪ X →
      (∀ w ∈ P ∪ X, ∀ r ∈ R, g.adj w r = true) →
      ∀ S ∈ bkLoop g (fun R' P' X' => bron_kerbosch g f R' P' X') R vs P X,
        ∃ v, v ∉ R ∧ insert v R ⊆ S := by
  intro vs
  induction vs with
  | nil =>
    intro P X _ _ _ _ _ S hS
    simp only [bkLoop] at hS
    exact absurd hS (List.not_mem_nil S)
  | cons v rest ih =>
    intro P X hnd hvsP hvsAdj huPX hadj S hS
    have hvP : v ∈ P := hvsP v (List.mem_cons_self _ _)
    have hvu : g.adj v u = false := hvsAdj v (List.mem_cons_self _ _)
    have hvR : v ∉ R := branch_not_in_R hs (fun r hr => hadj u huPX r hr) hvu
    have hvrest : v ∉ rest := (List.nodup_cons.mp hnd).1
    simp only [bkLoop, List.mem_append] at hS
    rcases hS with hS | hS
    · refine ⟨v, hvR, ?_⟩
      refine hrec (insert v R) (restrictTo g v P) (restrictTo g v X) ?_ S hS
      intro w hw r hr
      have hw' : (w ∈ P ∪ X) ∧ g.adj v w = true := by
        rcases Finset.mem_union.mp hw with h | h
        · rcases mem_restrictTo.mp h with ⟨h1, _, h3⟩
          exact ⟨Finset.mem_union_left _ h1, h3⟩
        · rcases mem_restrictTo.mp h with ⟨h1, _, h3⟩
          exact ⟨Finset.mem_union_right _ h1, h3⟩
      rcases Finset.mem_insert.mp hr with rfl | hrR
      · rw [hs w r]; exact hw'.2
      · exact hadj w hw'.1 r hrR
    · refine ih (P.erase v) (insert v X) (List.nodup_cons.mp hnd).2
        (fun w hw => Finset.mem_erase.mpr
          ⟨fun heq => hvrest (heq ▸ hw), hvsP w (List.mem_cons_of_mem _ hw)⟩)
        (fun w hw => hvsAdj w (List.mem_cons_of_mem _ hw)) ?_ ?_ S hS
      · rcases Finset.mem_union.mp huPX with h | h
        · by_cases huv : u = v
          · exact Finset.mem_union_right _ (Finset.mem_insert.mpr (Or.inl huv))
          · exact Finset.mem_union_left _ (Finset.mem_erase.mpr ⟨huv, h⟩)
        · exact Finset.mem_union_right _ (Finset.mem_insert_of_mem h)
      · intro w hw r hr
        apply hadj w ?_ r hr
        rcases Finset.mem_union.mp hw with h | h
        · exact Finset.mem_union_left _ (Finset.mem_of_mem_erase h)
        · rcases Finset.mem_insert.mp h with rfl | hX
          · exact Finset.mem_union_left _ hvP
          · exact Finset.mem_union_right _ hX

theorem bron_kerbosch_subset (g : Graph) (hs : adjSymm g) :
    ∀ (fuel : ℕ) (R P X : Finset ℕ),
      (∀ w ∈ P ∪ X, ∀ r ∈ R, g.adj w r = true) →
      ∀ S ∈ bron_kerbosch g fuel R P X, R ⊆ S := by
  intro fuel
  induction fuel with
  | zero =>
    intro R P X _ S hS
    exact absurd hS (List.not_mem_nil S)
  | succ f ih =>
    intro R P X hadj S hS
    by_cases hP : P = ∅
    · subst hP
      by_cases hX : X = ∅
      · subst hX
        simp only [bron_kerbosch, if_pos rfl, if_true, List.mem_singleton] at hS
        subst hS
        exact Finset.Subset.refl _
      · simp only [bron_kerbosch, if_pos rfl, if_neg hX, if_true] at hS
        exact absurd hS (List.not_mem_nil S)
    · simp only [bron_kerbosch, if_neg hP] at hS
      rcases hm : sortedMem g P with _ | ⟨u0, rest0⟩
      · rw [branchList, hm] at hS
        simp only [List.filter_nil, bkLoop] at hS
        exact absurd hS (List.not_mem_nil S)
      · have hmne : sortedMem g P ≠ [] := by rw [hm]; exact List.cons_ne_nil u0 rest0
        have huP : pivotOf g P X ∈ P := pivotOf_mem_of_ne hmne
        obtain ⟨v, hvR, hsub⟩ := bkLoop_superset g hs f R (pivotOf g P X)
          (fun R' P' X' hadj' S' hS' => ih R' P' X' hadj' S' hS')
          (branchList g P (pivotOf g P X)) P X (branchList_nodup g P _)
          (fun v hv => (mem_branchList.mp hv).2.1)
          (fun v hv => (mem_branchList.mp hv).2.2)
          (Finset.mem_union_left _ huP) hadj S hS
        exact (Finset.subset_insert v R).trans hsub

theorem bron_kerbosch_strict (g : Graph) (hs : adjSymm g) (fuel : ℕ)
    (R P X : Finset ℕ) (hP : P ≠ ∅)
    (hadj : ∀ w ∈ P ∪ X, ∀ r ∈ R, g.adj w r = true) :
    ∀ S ∈ bron_kerbosch g fuel R P X, S ≠ R := by
  intro S hS
  cases fuel with
  | zero => exact absurd hS (List.not_mem_nil S)
  | succ f =>
    simp only [bron_kerbosch, if_neg hP] at hS
    rcases hm : sortedMem g P with _ | ⟨u0, rest0⟩
    · rw [branchList, hm] at hS
      simp only [List.filter_nil, bkLoop] at hS
      exact absurd hS (List.not_mem_nil S)
    · have hmne : sortedMem g P ≠ [] := by rw [hm]; exact List.cons_ne_nil u0 rest0
      have huP : pivotOf g P X ∈ P := pivotOf_mem_of_ne hmne
      obtain ⟨v, hvR, hsub⟩ := bkLoop_superset g hs f R (pivotOf g P X)
        (fun R' P' X' hadj' S' hS' => bron_kerbosch_subset g hs f R' P' X' hadj' S' hS')
        (branchList g P (pivotOf g P X)) P X (branchList_nodup g P _)
        (fun v hv => (mem_branchList.mp hv).2.1)
        (fun v hv => (mem_branchList.mp hv).2.2)
        (Finset.mem_union_left _ huP) hadj S hS
      intro hSR
      exact hvR (hSR ▸ hsub (Finset.mem_insert_self v R))

/-! ### Fuel congruence: the recursion depth is bounded by the size of P -/

theorem bkLoop_congr (g : Graph) (R P₀ : Finset ℕ) (u : ℕ) (hu₀ : u ∈ P₀)
    (rec₁ rec₂ : Finset ℕ → Finset ℕ → Finset ℕ → List (Finset ℕ))
    (hrec : ∀ R' P' X', P'.card < P₀.card → rec₁ R' P' X' = rec₂ R' P' X') :
    ∀ (vs : List ℕ) (P X : Finset ℕ), (∀ v ∈ vs, g.adj v u = false) → P ⊆ P₀ →
      bkLoop g rec₁ R vs P X = bkLoop g rec₂ R vs P X := by
  intro vs
  induction vs with
  | nil => intro P X _ _; rfl
  | cons v rest ih =>
    intro P X hvsAdj hPP₀
    have hvu : g.adj v u = false := hvsAdj v (List.mem_cons_self _ _)
    simp only [bkLoop]
    rw [hrec (insert v R) (restrictTo g v P) (restrictTo g v X)
      (restrictTo_card_lt hu₀ hPP₀ hvu)]
    rw [ih (P.erase v) (insert v X) (fun w hw => hvsAdj w (List.mem_cons_of_mem _ hw))
      ((Finset.erase_subset v P).trans hPP₀)]

theorem bron_kerbosch_fuel_congr (g : Graph) :
    ∀ (f₁ f₂ : ℕ) (R P X : Finset ℕ), P.card < f₁ → P.card < f₂ →
      bron_kerbosch g f₁ R P X = bron_kerbosch g f₂ R P X := by
  intro f₁
  induction f₁ with
  | zero =>
    intro f₂ R P X h1
    exact absurd h1 (Nat.not_lt_zero _)
  | succ a ih =>
    intro f₂ R P X h1 h2
    cases f₂ with
    | zero => exact absurd h2 (Nat.not_lt_zero _)
    | succ b =>
      by_cases hP : P = ∅
      · simp only [bron_kerbosch, if_pos hP]
      · simp only [bron_kerbosch, if_neg hP]
        rcases hm : sortedMem g P with _ | ⟨u0, rest0⟩
        · rw [branchList, hm]
          simp only [List.filter_nil, bkLoop]
        · have hmne : sortedMem g P ≠ [] := by rw [hm]; exact List.cons_ne_nil u0 rest0
          have huP : pivotOf g P X ∈ P := pivotOf_mem_of_ne hmne
          apply bkLoop_congr g R P (pivotOf g P X) huP _ _
            (fun R' P' X' hcard => ih b R' P' X'
              (lt_of_lt_of_le hcard (Nat.lt_succ_iff.mp h1))
              (lt_of_lt_of_le hcard (Nat.lt_succ_iff.mp h2)))
            (branchList g P (pivotOf g P X)) P X
            (fun v hv => (mem_branchList.mp hv).2.2)
            (Finset.Subset.refl P)

/-! ### The edgeless graph: every vertex is its own singleton maximal clique -/

theorem bron_kerbosch_succ (g : Graph) (fuel : ℕ) (R P X : Finset ℕ) :
    bron_kerbosch g (fuel + 1) R P X =
      if P = ∅ then (if X = ∅ then [R] else [])
      else
        bkLoop g (fun R' P' X' => bron_kerbosch g fuel R' P' X') R
          (branchList g P (pivotOf g P X)) P X := rfl

theorem mkGraph_restrictTo (n v : ℕ) (S : Finset ℕ) : restrictTo (mkGraph n) v S = ∅ := by
  apply Finset.eq_empty_iff_forall_not_mem.mpr
  intro a ha
  have h := (mem_restrictTo.mp ha).2.2
  exact Bool.noConfusion h

theorem mkGraph_bkLoop (n f : ℕ) (R : Finset ℕ) :
    ∀ (vs : List ℕ) (P X : Finset ℕ),
      bkLoop (mkGraph n) (fun R' P' X' => bron_kerbosch (mkGraph n) (f + 1) R' P' X')
        R vs P X = vs.map (fun v => insert v R) := by
  intro vs
  induction vs with
  | nil => intro P X; rfl
  | cons v rest ih =>
    intro P X
    simp only [bkLoop, List.map_cons]
    rw [mkGraph_restrictTo, mkGraph_restrictTo]
    rw [ih (P.erase v) (insert v X)]
    simp only [bron_kerbosch, if_pos rfl, if_true]
    rfl

theorem mkGraph_sortedMem_range (n : ℕ) :
    sortedMem (mkGraph n) (Finset.range n) = List.range n := by
  apply List.filter_eq_self.mpr
  intro a ha
  simp only [decide_eq_true_eq]
  exact Finset.mem_range.mpr (List.mem_range.mp ha)

theorem mkGraph_branchList (n : ℕ) (u : ℕ) :
    branchList (mkGraph n) (Finset.range n) u = List.range n := by
  rw [branchList, mkGraph_sortedMem_range]
  apply List.filter_eq_self.mpr
  intro a _
  rfl

theorem find_max_cliques_mkGraph (n : ℕ) (hn : 0 < n) :
    find_max_cliques (mkGraph n) = (List.range n).map (fun i => ({i} : Finset ℕ)) := by
  obtain ⟨m, rfl⟩ : ∃ m, n = m + 1 := ⟨n - 1, by omega⟩
  have hgn : (mkGraph (m + 1)).n = m + 1 := rfl
  rw [find_max_cliques, hgn, if_pos hn]
  have hne : (Finset.range (m + 1) : Finset ℕ) ≠ ∅ := by
    apply Finset.nonempty_iff_ne_empty.mp
    exact ⟨0, Finset.mem_range.mpr (Nat.succ_pos m)⟩
  rw [bron_kerbosch_succ, if_neg hne]
  rw [mkGraph_branchList, mkGraph_bkLoop]
  apply List.map_congr_left
  intro a _
  rfl

/-! ### State-threaded embedding for the frame property

The C++ methods are non-const member functions: in principle each call could
mutate `num_vertices` or `adj_matrix`.  We translate them in state-passing
style, every helper returning the graph object alongside its value, and the
recursion threading the returned graph through all subsequent calls.  The
helpers only read the adjacency matrix, so each returns its input graph. -/

/-- `get_neighbors` in state-passing style: reads the matrix, writes nothing. -/
def get_neighborsSt (g : Graph) (v : ℕ) : Graph × List ℕ := (g, get_neighbors g v)

/-- `degree` in state-passing style. -/
def degreeSt (g : Graph) (u : ℕ) : Graph × ℕ := (g, degree g u)

/-- `is_neighbor` in state-passing style. -/
def is_neighborSt (g : Graph) (u v : ℕ) : Graph × Bool := (g, is_neighbor g u v)

/-- The pivot scan, threading the graph through each `degree` call. -/
def pivotAuxSt (X : Finset ℕ) : Graph → ℕ → List ℕ → Graph × ℕ
  | g, u, [] => (g, u)
  | g, u, v :: rest =>
      if v ∈ X then pivotAuxSt X g u rest
      else
        let pv := degreeSt g v
        let pu := degreeSt pv.1 u
        if pv.2 > pu.2 then pivotAuxSt X pu.1 v rest else pivotAuxSt X pu.1 u rest

/-- Pivot selection, threading the graph. -/
def pivotOfSt (g : Graph) (P X : Finset ℕ) : Graph × ℕ :=
  match sortedMem g P with
  | [] => (g, 0)
  | u :: rest => pivotAuxSt X g u (u :: rest)

/-- Building `P_minus_N`, threading the graph through each `is_neighbor`
call. -/
def branchAuxSt (u : ℕ) : Graph → List ℕ → Graph × List ℕ
  | g, [] => (g, [])
  | g, v :: rest =>
      let p := is_neighborSt g v u
      let q := branchAuxSt u p.1 rest
      (q.1, if p.2 then q.2 else v :: q.2)

/-- `new_P` / `new_X` construction, threading the graph through the
`get_neighbors` call. -/
def restrictToSt (g : Graph) (v : ℕ) (S : Finset ℕ) : Graph × Finset ℕ :=
  let p := get_neighborsSt g v
  (p.1, S.filter (fun w => w ∈ p.2))

/-- The branch loop, threading the graph through the child calls. -/
def bkLoopSt (recur : Graph → Finset ℕ → Finset ℕ → Finset ℕ → Graph × List (Finset ℕ))
    (R : Finset ℕ) : Graph → List ℕ → Finset ℕ → Finset ℕ → Graph × List (Finset ℕ)
  | g, [], _, _ => (g, [])
  | g, v :: rest, P, X =>
      let pP := restrictToSt g v P
      let pX := restrictToSt pP.1 v X
      let pc := recur pX.1 (insert v R) pP.2 pX.2
      let pr := bkLoopSt recur R pc.1 rest (P.erase v) (insert v X)
      (pr.1, pc.2 ++ pr.2)

/-- `bron_kerbosch` in state-passing style. -/
def bron_kerboschSt : ℕ → Graph → Finset ℕ → Finset ℕ → Finset ℕ → Graph × List (Finset ℕ)
  | 0, g, _, _, _ => (g, [])
  | fuel + 1, g, R, P, X =>
      if P = ∅ then (if X = ∅ then (g, [R]) else (g, []))
      else
        let pu := pivotOfSt g P X
        let pb := branchAuxSt pu.2 pu.1 (sortedMem pu.1 P)
        bkLoopSt (fun g' R' P' X' => bron_kerboschSt fuel g' R' P' X') R pb.1 pb.2 P X

/-- `find_max_cliques` in state-passing style: returns the graph object as
left by the search, together with the clique collection. -/
def find_max_cliquesSt (g : Graph) : Graph × List (Finset ℕ) :=
  if 0 < g.n then bron_kerboschSt (g.n + 1) g ∅ (Finset.range g.n) ∅ else (g, [])

theorem pivotAuxSt_eq (X : Finset ℕ) (g : Graph) :
    ∀ (l : List ℕ) (u : ℕ), pivotAuxSt X g u l = (g, pivotAux g X u l) := by
  intro l
  induction l with
  | nil => intro u; rfl
  | cons v rest ih =>
    intro u
    rw [pivotAuxSt, pivotAux]
    by_cases hv : v ∈ X
    · rw [if_pos hv, if_pos hv, ih u]
    · rw [if_neg hv, if_neg hv]
      simp only [degreeSt]
      by_cases hd : degree g v > degree g u
      · rw [if_pos hd, if_pos hd, ih v]
      · rw [if_neg hd, if_neg hd, ih u]

theorem pivotOfSt_eq (g : Graph) (P X : Finset ℕ) :
    pivotOfSt g P X = (g, pivotOf g P X) := by
  rw [pivotOfSt, pivotOf]
  rcases sortedMem g P with _ | ⟨u, rest⟩
  · rfl
  · exact pivotAuxSt_eq X g (u :: rest) u

theorem branchAuxSt_eq (u : ℕ) (g : Graph) :
    ∀ l : List ℕ, branchAuxSt u g l = (g, l.filter (fun v => ! is_neighbor g v u)) := by
  intro l
  induction l with
  | nil => rfl
  | cons v rest ih =>
    rw [branchAuxSt, List.filter_cons]
    simp only [is_neighborSt, ih]
    by_cases hv : is_neighbor g v u
    · rw [hv]
      simp
    · simp only [Bool.not_eq_true] at hv
      rw [hv]
      simp

theorem restrictToSt_eq (g : Graph) (v : ℕ) (S : Finset ℕ) :
    restrictToSt g v S = (g, restrictTo g v S) := rfl

theorem bkLoopSt_eq (f : ℕ) (R : Finset ℕ)
    (hrec : ∀ (g : Graph) (R' P' X' : Finset ℕ),
      bron_kerboschSt f g R' P' X' = (g, bron_kerbosch g f R' P' X')) (g : Graph) :
    ∀ (vs : List ℕ) (P X : Finset ℕ),
      bkLoopSt (fun g' R' P' X' => bron_kerboschSt f g' R' P' X') R g vs P X =
        (g, bkLoop g (fun R' P' X' => bron_kerbosch g f R' P' X') R vs P X) := by
  intro vs
  induction vs with
  | nil => intro P X; rfl
  | cons v rest ih =>
    intro P X
    rw [bkLoopSt, bkLoop]
    simp only [restrictToSt_eq]
    rw [hrec g (insert v R) (restrictTo g v P) (restrictTo g v X)]
    rw [ih (P.erase v) (insert v X)]

theorem bron_kerboschSt_eq :
    ∀ (fuel : ℕ) (g : Graph) (R P X : Finset ℕ),
      bron_kerboschSt fuel g R P X = (g, bron_kerbosch g fuel R P X) := by
  intro fuel
  induction fuel with
  | zero => intro g R P X; rfl
  | succ f ih =>
    intro g R P X
    rw [bron_kerboschSt, bron_kerbosch_succ]
    by_cases hP : P = ∅
    · rw [if_pos hP, if_pos hP]
      by_cases hX : X = ∅
      · rw [if_pos hX, if_pos hX]
      · rw [if_neg hX, if_neg hX]
    · rw [if_neg hP, if_neg hP]
      simp only [pivotOfSt_eq, branchAuxSt_eq]
      rw [bkLoopSt_eq f R ih g]
      rfl

theorem find_max_cliquesSt_eq (g : Graph) :
    find_max_cliquesSt g = (g, find_max_cliques g) := by
  rw [find_max_cliquesSt, find_max_cliques]
  by_cases hn : 0 < g.n
  · rw [if_pos hn, if_pos hn, bron_kerboschSt_eq]
  · rw [if_neg hn, if_neg hn]

/-! ### Assembly lemmas -/

theorem BKInv_init (g : Graph) : BKInv g ∅ (Finset.range g.n) ∅ := by
  constructor
  · intro a ha
    exact absurd ha (Finset.not_mem_empty a)
  · intro w _ r hr
    exact absurd hr (Finset.not_mem_empty r)
  · simp
  · intro w hwn _ _
    exact Finset.mem_union_left _ (Finset.mem_range.mpr hwn)
  · rw [Finset.union_empty]
  · intro a ha
    exact absurd ha (Finset.not_mem_empty a)

theorem find_max_cliques_sound (g : Graph) (hs : adjSymm g) (hb : adjBounded g) :
    ∀ S ∈ find_max_cliques g, isMaxClique g S := by
  intro S hS
  rw [find_max_cliques] at hS
  by_cases hn : 0 < g.n
  · rw [if_pos hn] at hS
    exact bron_kerbosch_sound g hs hb (g.n + 1) ∅ (Finset.range g.n) ∅
      (Or.inr ⟨0, Finset.mem_range.mpr hn⟩) (BKInv_init g) S hS
  · rw [if_neg hn] at hS
    exact absurd hS (List.not_mem_nil S)

/-- The three-part search-state invariant stated in the spec: every vertex
of `P ∪ X` is adjacent to every vertex of `R`; `P` and `X` are disjoint;
`R` is itself a clique. -/
def searchInvariant (g : Graph) (R P X : Finset ℕ) : Prop :=
  (∀ w ∈ P ∪ X, ∀ r ∈ R, g.adj w r = true) ∧ P ∩ X = ∅ ∧ isClique g R

/-! ### Claim theorems -/

instance isClique_decidable (g : Graph) (S : Finset ℕ) : Decidable (isClique g S) :=
  inferInstanceAs (Decidable (∀ u ∈ S, ∀ v ∈ S, u ≠ v → g.adj u v = true))

/-- Claim C1, counterexample: the claim quantifies over every sequence of
`add_edge` calls, but a self-loop `add_edge(0, 0)` on a one-vertex graph
makes the single vertex adjacent to the pivot (itself), so `P_minus_N` is
empty and the search records nothing — yet `{0}` is a maximal clique of
that graph (its distinct members are vacuously pairwise adjacent and no
pairwise-adjacent strict superset exists).  Thus a maximal clique is
omitted from the result. -/
theorem C1_counterexample :
    isMaxClique (buildGraph 1 [((0 : Int), (0 : Int))]) {0} ∧
      ({0} : Finset ℕ) ∉ find_max_cliques (buildGraph 1 [((0 : Int), (0 : Int))]) := by
  constructor
  · refine ⟨⟨0, by decide⟩, by decide, by decide, ?_⟩
    intro T hT hsub
    apply Finset.Subset.antisymm hsub
    intro t ht
    rw [Finset.mem_singleton]
    by_contra h0
    have hadj : (buildGraph 1 [((0 : Int), (0 : Int))]).adj t 0 = true :=
      hT t ht 0 (hsub (Finset.mem_singleton_self 0)) h0
    have hlt := (buildGraph_bounded 1 [((0 : Int), (0 : Int))] t 0 hadj).1
    rw [buildGraph_n] at hlt
    omega
  · decide

/-- Claim C1, amended (restricted to `add_edge` sequences whose two
endpoints differ, i.e. graphs without self-loops — the counterexample
`add_edge(0,0)` forces this restriction): for every graph built with a
non-negative vertex count and any self-loop-free sequence of `add_edge`
calls, `find_max_cliques` returns a collection containing every maximal
clique of the graph, containing nothing else, and containing no
duplicates. -/
theorem C1_exact_enumeration (n : ℕ) (es : List (Int × Int))
    (hne : ∀ p ∈ es, p.1 ≠ p.2) :
    (∀ Q, Q ∈ find_max_cliques (buildGraph n es) ↔ isMaxClique (buildGraph n es) Q) ∧
      (find_max_cliques (buildGraph n es)).Nodup :=
  find_max_cliques_exact (buildGraph n es) (buildGraph_symm n es)
    (buildGraph_bounded n es) (buildGraph_irrefl n es hne)

theorem C1_witness :
    (({0, 1} : Finset ℕ) ∈ find_max_cliques (buildGraph 2 [((0 : Int), (1 : Int))]) ↔
      isMaxClique (buildGraph 2 [((0 : Int), (1 : Int))]) {0, 1}) ∧
      (find_max_cliques (buildGraph 2 [((0 : Int), (1 : Int))])).Nodup :=
  ⟨(C1_exact_enumeration 2 [((0 : Int), (1 : Int))] (by decide)).1 {0, 1},
    (C1_exact_enumeration 2 [((0 : Int), (1 : Int))] (by decide)).2⟩

/-- Claim C2: every set returned by `find_max_cliques` is a clique of the
input graph (all distinct member vertices pairwise adjacent) and is
maximal — it is not a proper subset of any vertex set that is itself
pairwise adjacent in the graph.  This holds for every `add_edge` sequence,
self-loops included. -/
theorem C2_soundness (n : ℕ) (es : List (Int × Int)) (S : Finset ℕ)
    (hS : S ∈ find_max_cliques (buildGraph n es)) :
    isClique (buildGraph n es) S ∧ unextendable (buildGraph n es) S :=
  ⟨(find_max_cliques_sound (buildGraph n es) (buildGraph_symm n es)
      (buildGraph_bounded n es) S hS).2.2.1,
    (find_max_cliques_sound (buildGraph n es) (buildGraph_symm n es)
      (buildGraph_bounded n es) S hS).2.2.2⟩

theorem C2_witness :
    isClique (buildGraph 2 [((0 : Int), (1 : Int))]) {0, 1} ∧
      unextendable (buildGraph 2 [((0 : Int), (1 : Int))]) {0, 1} :=
  C2_soundness 2 [((0 : Int), (1 : Int))] {0, 1} (by decide)

/-- Claim C3: for a graph with `n = 0` vertices (whatever `add_edge` calls
were made — all are out of range), `find_max_cliques` returns the empty
collection, so in particular the empty vertex set is never reported; for a
graph with `n > 0` vertices and no edges, the result is exactly the list
of singletons `{0}, {1}, …, {n-1}`. -/
theorem C3_empty_and_edgeless :
    (∀ es : List (Int × Int), find_max_cliques (buildGraph 0 es) = []) ∧
      (∀ n : ℕ, 0 < n →
        find_max_cliques (buildGraph n []) =
          (List.range n).map (fun i => ({i} : Finset ℕ))) := by
  constructor
  · intro es
    rw [find_max_cliques, buildGraph_n]
    rfl
  · intro n hn
    exact find_max_cliques_mkGraph n hn

theorem C3_witness :
    find_max_cliques (buildGraph 0 [((5 : Int), (7 : Int))]) = [] ∧
      0 < 3 ∧
        find_max_cliques (buildGraph 3 []) =
          (List.range 3).map (fun i => ({i} : Finset ℕ)) :=
  ⟨C3_empty_and_edgeless.1 [((5 : Int), (7 : Int))], by decide,
    C3_empty_and_edgeless.2 3 (by decide)⟩

/-- Claim C4: the search terminates on every constructible graph, with
recursion depth bounded by `n`: running the recursion with any fuel
exceeding `n` gives the same output as fuel `n + 1` (each level strictly
shrinks `P`, which starts with `n` elements), and `find_max_cliques` is
exactly that stabilised run when `n > 0`.  (The function `find_max_cliques`
itself is total, so it always completes and returns a result.) -/
theorem C4_termination_depth_bound (n : ℕ) (es : List (Int × Int)) (fuel : ℕ)
    (hfuel : n < fuel) :
    (bron_kerbosch (buildGraph n es) fuel ∅ (Finset.range n) ∅ =
      bron_kerbosch (buildGraph n es) (n + 1) ∅ (Finset.range n) ∅) ∧
      (0 < n → find_max_cliques (buildGraph n es) =
        bron_kerbosch (buildGraph n es) fuel ∅ (Finset.range n) ∅) := by
  constructor
  · exact bron_kerbosch_fuel_congr (buildGraph n es) fuel (n + 1) ∅ (Finset.range n) ∅
      (by rw [Finset.card_range]; exact hfuel)
      (by rw [Finset.card_range]; exact Nat.lt_succ_self n)
  · intro hn
    rw [find_max_cliques, buildGraph_n, if_pos hn]
    exact bron_kerbosch_fuel_congr (buildGraph n es) (n + 1) fuel ∅ (Finset.range n) ∅
      (by rw [Finset.card_range]; exact Nat.lt_succ_self n)
      (by rw [Finset.card_range]; exact hfuel)

theorem C4_witness :
    (bron_kerbosch (buildGraph 2 [((0 : Int), (1 : Int))]) 5 ∅ (Finset.range 2) ∅ =
      bron_kerbosch (buildGraph 2 [((0 : Int), (1 : Int))]) 3 ∅ (Finset.range 2) ∅) ∧
      find_max_cliques (buildGraph 2 [((0 : Int), (1 : Int))]) =
        bron_kerbosch (buildGraph 2 [((0 : Int), (1 : Int))]) 5 ∅ (Finset.range 2) ∅ :=
  ⟨(C4_termination_depth_bound 2 [((0 : Int), (1 : Int))] 5 (by decide)).1,
    (C4_termination_depth_bound 2 [((0 : Int), (1 : Int))] 5 (by decide)).2 (by decide)⟩

/-- Claim C5: `add_edge(u, v)` is silently ignored (the graph is completely
unchanged) when either endpoint lies outside `[0, n)`; when both endpoints
are in range it leaves the vertex count unchanged, sets the adjacency in
both directions, and changes no other entry of the matrix. -/
theorem C5_add_edge_spec (g : Graph) (u v : Int) :
    (¬(0 ≤ u ∧ u < (g.n : Int) ∧ 0 ≤ v ∧ v < (g.n : Int)) → add_edge g u v = g) ∧
      ((0 ≤ u ∧ u < (g.n : Int) ∧ 0 ≤ v ∧ v < (g.n : Int)) →
        (add_edge g u v).n = g.n ∧
          (add_edge g u v).adj u.toNat v.toNat = true ∧
          (add_edge g u v).adj v.toNat u.toNat = true ∧
          ∀ a b : ℕ, ¬(a = u.toNat ∧ b = v.toNat) → ¬(a = v.toNat ∧ b = u.toNat) →
            (add_edge g u v).adj a b = g.adj a b) := by
  constructor
  · intro h
    rw [add_edge, if_neg h]
  · intro h
    rw [add_edge, if_pos h]
    refine ⟨rfl, ?_, ?_, ?_⟩
    · simp
    · simp
    · intro a b h1 h2
      simp only
      rw [if_neg (by tauto)]

theorem C5_witness :
    add_edge (mkGraph 2) 5 0 = mkGraph 2 ∧
      (add_edge (mkGraph 2) 0 1).adj (Int.toNat 0) (Int.toNat 1) = true ∧
      (add_edge (mkGraph 2) 0 1).adj (Int.toNat 1) (Int.toNat 0) = true :=
  ⟨(C5_add_edge_spec (mkGraph 2) 5 0).1 (by decide),
    ((C5_add_edge_spec (mkGraph 2) 0 1).2 (by decide)).2.1,
    ((C5_add_edge_spec (mkGraph 2) 0 1).2 (by decide)).2.2.1⟩

/-- Claim C6: constructing a graph with a negative vertex count fails (the
vector constructor receives a converted count beyond its maximum size and
throws, so no graph object in an undefined state is produced); a
non-negative count yields the edgeless graph on that many vertices. -/
theorem C6_negative_count_rejected (n : Int) :
    (n < 0 → graphCreate n = none) ∧
      (0 ≤ n → graphCreate n = some (mkGraph n.toNat)) := by
  constructor
  · intro h
    rw [graphCreate, if_pos h]
  · intro h
    rw [graphCreate, if_neg (not_lt.mpr h)]

theorem C6_witness :
    graphCreate (-3) = none ∧ graphCreate 2 = some (mkGraph (Int.toNat 2)) :=
  ⟨(C6_negative_count_rejected (-3)).1 (by decide),
    (C6_negative_count_rejected 2).2 (by decide)⟩

/-- Claim C7: at any call of the search whose state satisfies the
adjacency invariant (every candidate adjacent to every vertex of `R`, as
holds at every reachable call of a symmetric graph), the clique `R` is
recorded exactly when both `P` and `X` are empty: with `P = X = ∅` the
call returns `[R]`; with `P = ∅ ≠ X` it returns `[]`; and with `P ≠ ∅`
every recorded clique strictly extends `R`, so `R` itself is never
recorded. -/
theorem C7_record_condition (g : Graph) (fuel : ℕ) (R P X : Finset ℕ)
    (hs : adjSymm g) (hadj : ∀ w ∈ P ∪ X, ∀ r ∈ R, g.adj w r = true) :
    (P = ∅ → X = ∅ → bron_kerbosch g (fuel + 1) R P X = [R]) ∧
      (P = ∅ → X ≠ ∅ → bron_kerbosch g (fuel + 1) R P X = []) ∧
      (P ≠ ∅ → R ∉ bron_kerbosch g (fuel + 1) R P X) := by
  refine ⟨?_, ?_, ?_⟩
  · intro hP hX
    rw [bron_kerbosch_succ, if_pos hP, if_pos hX]
  · intro hP hX
    rw [bron_kerbosch_succ, if_pos hP, if_neg hX]
  · intro hP hmem
    exact bron_kerbosch_strict g hs (fuel + 1) R P X hP hadj R hmem rfl

theorem C7_witness :
    bron_kerbosch (buildGraph 2 [((0 : Int), (1 : Int))]) 1 {0, 1} ∅ ∅ = [{0, 1}] ∧
      (∅ : Finset ℕ) ∉ bron_kerbosch (buildGraph 2 [((0 : Int), (1 : Int))]) 2 ∅ {0, 1} ∅ :=
  ⟨(C7_record_condition (buildGraph 2 [((0 : Int), (1 : Int))]) 0 {0, 1} ∅ ∅
      (buildGraph_symm 2 [((0 : Int), (1 : Int))]) (by decide)).1 rfl rfl,
    (C7_record_condition (buildGraph 2 [((0 : Int), (1 : Int))]) 1 ∅ {0, 1} ∅
      (buildGraph_symm 2 [((0 : Int), (1 : Int))]) (by decide)).2.2 (by decide)⟩

/-- Claim C8: in a call with non-empty `P` (with `P`, `X` disjoint and `P`
in range, as at every reachable call), the chosen pivot `u` lies in `P`,
not in `X`, and attains the maximum whole-graph degree among the vertices
of `P` not in `X`; the call then branches exactly on `P_minus_N`, the
vertices of `P` not adjacent to `u`, computed from `P` at entry to the
loop. -/
theorem C8_pivot_spec (g : Graph) (P X : Finset ℕ) (hP : P.Nonempty)
    (hd : P ∩ X = ∅) (hPr : P ⊆ Finset.range g.n) :
    pivotOf g P X ∈ P ∧
      pivotOf g P X ∉ X ∧
      (∀ v ∈ P, v ∉ X → degree g v ≤ degree g (pivotOf g P X)) ∧
      (∀ v : ℕ, v ∈ branchList g P (pivotOf g P X) ↔
        v ∈ P ∧ g.adj v (pivotOf g P X) = false) ∧
      (∀ (fuel : ℕ) (R : Finset ℕ), bron_kerbosch g (fuel + 1) R P X =
        bkLoop g (fun R' P' X' => bron_kerbosch g fuel R' P' X') R
          (branchList g P (pivotOf g P X)) P X) := by
  refine ⟨pivotOf_mem hP hPr, pivotOf_notMem hd hP hPr, pivotOf_max hP hPr, ?_, ?_⟩
  · intro v
    rw [mem_branchList]
    constructor
    · rintro ⟨_, hvP, hvadj⟩
      exact ⟨hvP, hvadj⟩
    · rintro ⟨hvP, hvadj⟩
      exact ⟨Finset.mem_range.mp (hPr hvP), hvP, hvadj⟩
  · intro fuel R
    rw [bron_kerbosch_succ, if_neg (Finset.nonempty_iff_ne_empty.mp hP)]

theorem C8_witness :
    pivotOf (buildGraph 3 [((0 : Int), (1 : Int)), ((1 : Int), (2 : Int))]) {0, 1, 2} ∅ ∈
        ({0, 1, 2} : Finset ℕ) ∧
      pivotOf (buildGraph 3 [((0 : Int), (1 : Int)), ((1 : Int), (2 : Int))]) {0, 1, 2} ∅ ∉
        (∅ : Finset ℕ) ∧
      degree (buildGraph 3 [((0 : Int), (1 : Int)), ((1 : Int), (2 : Int))]) 0 ≤
        degree (buildGraph 3 [((0 : Int), (1 : Int)), ((1 : Int), (2 : Int))])
          (pivotOf (buildGraph 3 [((0 : Int), (1 : Int)), ((1 : Int), (2 : Int))]) {0, 1, 2} ∅) ∧
      (2 ∈ branchList (buildGraph 3 [((0 : Int), (1 : Int)), ((1 : Int), (2 : Int))]) {0, 1, 2}
          (pivotOf (buildGraph 3 [((0 : Int), (1 : Int)), ((1 : Int), (2 : Int))]) {0, 1, 2} ∅) ↔
        2 ∈ ({0, 1, 2} : Finset ℕ) ∧
          (buildGraph 3 [((0 : Int), (1 : Int)), ((1 : Int), (2 : Int))]).adj 2
            (pivotOf (buildGraph 3 [((0 : Int), (1 : Int)), ((1 : Int), (2 : Int))]) {0, 1, 2} ∅) =
              false) ∧
      bron_kerbosch (buildGraph 3 [((0 : Int), (1 : Int)), ((1 : Int), (2 : Int))]) 1 ∅ {0, 1, 2} ∅ =
        bkLoop (buildGraph 3 [((0 : Int), (1 : Int)), ((1 : Int), (2 : Int))])
          (fun R' P' X' =>
            bron_kerbosch (buildGraph 3 [((0 : Int), (1 : Int)), ((1 : Int), (2 : Int))]) 0 R' P' X') ∅
          (branchList (buildGraph 3 [((0 : Int), (1 : Int)), ((1 : Int), (2 : Int))]) {0, 1, 2}
            (pivotOf (buildGraph 3 [((0 : Int), (1 : Int)), ((1 : Int), (2 : Int))]) {0, 1, 2} ∅))
          {0, 1, 2} ∅ := by
  have h := C8_pivot_spec (buildGraph 3 [((0 : Int), (1 : Int)), ((1 : Int), (2 : Int))])
    {0, 1, 2} ∅ ⟨0, by decide⟩ (by decide) (by decide)
  exact ⟨h.1, h.2.1, h.2.2.1 0 (by decide) (by decide), h.2.2.2.1 2, h.2.2.2.2 0 ∅⟩

/-- Claim C9: the spec's search-state invariant — every vertex of `P ∪ X`
adjacent to every vertex of `R`, `P` and `X` disjoint, `R` a clique —
holds at the initial call, is preserved when passing to the child state
`(R ∪ {v}, P ∩ N(v), X ∩ N(v))` for any `v ∈ P`, and is preserved by the
between-siblings update that moves `v` from `P` to `X`; by induction it
therefore holds at every recursive call the search makes. -/
theorem C9_invariant (g : Graph) (hs : adjSymm g) :
    searchInvariant g ∅ (Finset.range g.n) ∅ ∧
      ∀ R P X v, searchInvariant g R P X → v ∈ P →
        searchInvariant g (insert v R) (restrictTo g v P) (restrictTo g v X) ∧
          searchInvariant g R (P.erase v) (insert v X) := by
  constructor
  · refine ⟨?_, by simp, ?_⟩
    · intro w _ r hr
      exact absurd hr (Finset.not_mem_empty r)
    · intro a ha
      exact absurd ha (Finset.not_mem_empty a)
  · rintro R P X v ⟨hadj, hdisj, hclique⟩ hvP
    constructor
    · refine ⟨?_, ?_, ?_⟩
      · intro w hw r hr
        have hw' : (w ∈ P ∪ X) ∧ g.adj v w = true := by
          rcases Finset.mem_union.mp hw with h | h
          · rcases mem_restrictTo.mp h with ⟨h1, _, h3⟩
            exact ⟨Finset.mem_union_left _ h1, h3⟩
          · rcases mem_restrictTo.mp h with ⟨h1, _, h3⟩
            exact ⟨Finset.mem_union_right _ h1, h3⟩
        rcases Finset.mem_insert.mp hr with rfl | hrR
        · rw [hs w r]
          exact hw'.2
        · exact hadj w hw'.1 r hrR
      · apply Finset.eq_empty_iff_forall_not_mem.mpr
        intro a ha
        rcases Finset.mem_inter.mp ha with ⟨haP, haX⟩
        exact notMem_of_inter_empty hdisj (mem_restrictTo.mp haP).1
          (mem_restrictTo.mp haX).1
      · intro a ha b hb hab
        rcases Finset.mem_insert.mp ha with rfl | haR
        · rcases Finset.mem_insert.mp hb with rfl | hbR
          · exact absurd rfl hab
          · exact hadj a (Finset.mem_union_left _ hvP) b hbR
        · rcases Finset.mem_insert.mp hb with rfl | hbR
          · rw [hs a b]
            exact hadj b (Finset.mem_union_left _ hvP) a haR
          · exact hclique a haR b hbR hab
    · refine ⟨?_, ?_, hclique⟩
      · intro w hw r hr
        apply hadj w ?_ r hr
        rcases Finset.mem_union.mp hw with h | h
        · exact Finset.mem_union_left _ (Finset.mem_of_mem_erase h)
        · rcases Finset.mem_insert.mp h with rfl | hX
          · exact Finset.mem_union_left _ hvP
          · exact Finset.mem_union_right _ hX
      · apply Finset.eq_empty_iff_forall_not_mem.mpr
        intro a ha
        rcases Finset.mem_inter.mp ha with ⟨haP, haX⟩
        rcases Finset.mem_erase.mp haP with ⟨hav, haP'⟩
        rcases Finset.mem_insert.mp haX with rfl | haX'
        · exact hav rfl
        · exact notMem_of_inter_empty hdisj haP' haX'

theorem C9_witness :
    searchInvariant (buildGraph 2 [((0 : Int), (1 : Int))]) ∅
        (Finset.range (buildGraph 2 [((0 : Int), (1 : Int))]).n) ∅ ∧
      searchInvariant (buildGraph 2 [((0 : Int), (1 : Int))]) {0}
        (restrictTo (buildGraph 2 [((0 : Int), (1 : Int))]) 0
          (Finset.range (buildGraph 2 [((0 : Int), (1 : Int))]).n))
        (restrictTo (buildGraph 2 [((0 : Int), (1 : Int))]) 0 ∅) := by
  have h := C9_invariant (buildGraph 2 [((0 : Int), (1 : Int))])
    (buildGraph_symm 2 [((0 : Int), (1 : Int))])
  exact ⟨h.1, (h.2 ∅ (Finset.range (buildGraph 2 [((0 : Int), (1 : Int))]).n) ∅ 0 h.1
    (by decide)).1⟩

/-- Claim C10: `find_max_cliques` does not modify the graph.  In the
state-passing translation, in which every helper returns the (possibly
updated) graph object and the recursion threads it through all calls, the
graph returned by the whole search is the input graph — `num_vertices` and
the entire adjacency matrix are unchanged — and the clique collection is
that of the pure search. -/
theorem C10_no_mutation (g : Graph) :
    (find_max_cliquesSt g).1 = g ∧ (find_max_cliquesSt g).2 = find_max_cliques g := by
  rw [find_max_cliquesSt_eq]
  exact ⟨rfl, rfl⟩
